import Mathlib

/-!
Verification of the comunio-intelligence-tool core: roster reconstruction
(backend/historical_squads.py), settlement-day mapping (backend/config.py),
valuation cache and salary ledger (backend/salary_from_squads.py), balance
aggregation (backend/balance.py) and the news-cache loader
(backend/scraper.py).

Modelling conventions (shallow embedding):
* Instants (Python naive `datetime`, Berlin local time) are integers counting
  minutes on one timeline; calendar dates are integers counting days.
  `dateOf` is `datetime.date()`, `combine` is `datetime.combine`.  All event
  timestamps produced by this repository are naive Berlin times (the news
  cache strips timezone info on load), so `_to_naive_berlin` is the identity
  and is not modelled separately.
* Python `dict` is insertion ordered; both squad dictionaries and the salary
  accumulator are modelled as association lists where an update-in-place
  keeps the entry position and a fresh key is appended at the end.
* Python `set[int]` is a `Finset ℤ`; where the source iterates over a set
  (an order Python leaves unspecified but on which the results do not
  depend) the model iterates in ascending order.
-/

namespace Comunio

/-- An instant: minutes on a single timeline (naive Berlin `datetime`). -/
abbrev DT := Int

/-- A calendar date: days on a single timeline (Python `date`). -/
abbrev Date := Int

/-- `datetime.date()`: the calendar day containing an instant. -/
def dateOf (t : DT) : Date := Int.fdiv t 1440

/-- `datetime.hour`: the hour-of-day of an instant. -/
def hourOf (t : DT) : Int := Int.fdiv (Int.emod t 1440) 60

/-- `datetime.combine(d, tod)`: the instant at time-of-day `tod` (minutes) on day `d`. -/
def combine (d : Date) (tod : Int) : DT := d * 1440 + tod

/-- One transfer event `(transfer_datetime, from_user_id, to_user_id, tradable_id)`
as produced by `get_news_transfer_events_since`. -/
structure Ev where
  t : DT
  fromId : Int
  toId : Int
  assetId : Int
  deriving DecidableEq, Repr

/-- Squad dictionary `dict[int, set[int]]`, insertion ordered. -/
abbrev Squads := List (Int × Finset Int)

/-- Python `dict` lookup `squads[uid]` (first matching key; keys are unique in
any dictionary the source builds). -/
def lookupSq (uid : Int) : Squads → Option (Finset Int)
  | [] => none
  | (k, v) :: rest => if k = uid then some v else lookupSq uid rest

/-- The squad stored for `uid`, defaulting to the empty set. -/
def getSq (s : Squads) (uid : Int) : Finset Int := (lookupSq uid s).getD ∅

/-- `squads.setdefault(uid, set())` followed by mutating the resulting set with
`f`: updates the entry in place when the key exists, otherwise appends
`(uid, f ∅)` at the end (Python dict insertion order). -/
def upsert (uid : Int) (f : Finset Int → Finset Int) : Squads → Squads
  | [] => [(uid, f ∅)]
  | (k, v) :: rest =>
    if k = uid then (k, f v) :: rest else (k, v) :: upsert uid f rest

/-- Forward application of one event (historical_squads.py lines 104-105):
`squads.setdefault(from_uid, set()).discard(tradable_id)` then
`squads.setdefault(to_uid, set()).add(tradable_id)`. -/
def applyEv (e : Ev) (s : Squads) : Squads :=
  upsert e.toId (insert e.assetId) (upsert e.fromId (fun v => v.erase e.assetId) s)

/-- Inverse application of one event (historical_squads.py lines 111-112):
`squads.setdefault(to_uid, set()).discard(tradable_id)` then
`squads.setdefault(from_uid, set()).add(tradable_id)`. -/
def applyInvEv (e : Ev) (s : Squads) : Squads :=
  upsert e.fromId (insert e.assetId) (upsert e.toId (fun v => v.erase e.assetId) s)

/-- `_squads_copy`: `{uid: set(s) for uid, s in squads.items()}`. -/
def squads_copy (s : Squads) : Squads := s.map (fun p => (p.1, p.2))

/-- Sort key of the source's `events.sort(key=lambda x: x[0])`: ascending by
timestamp (Python sort is stable). -/
@[reducible] def evLe (a b : Ev) : Prop := a.t ≤ b.t

/-- Comparison used by `events.sort(key=lambda x: x[0], reverse=True)`:
descending by timestamp, stable on ties. -/
@[reducible] def evGe (a b : Ev) : Prop := b.t ≤ a.t

instance : DecidableRel evLe := fun a b => inferInstanceAs (Decidable (a.t ≤ b.t))
instance : DecidableRel evGe := fun a b => inferInstanceAs (Decidable (b.t ≤ a.t))

instance : IsTotal Ev evLe := ⟨fun a b => le_total a.t b.t⟩
instance : IsTrans Ev evLe := ⟨fun _ _ _ h₁ h₂ => le_trans h₁ h₂⟩
instance : IsTotal Ev evGe := ⟨fun a b => le_total b.t a.t⟩
instance : IsTrans Ev evGe := ⟨fun _ _ _ h₁ h₂ => le_trans h₂ h₁⟩

/-- `reconstruct_squads_at_date` (historical_squads.py lines 78-113).
`cutoff_time` is the optional `cutoff_time` keyword (minutes past midnight). -/
def reconstruct_squads_at_date (seed_date : Date) (seed_squads : Squads)
    (transfer_events : List Ev) (target_date : Date)
    (cutoff_time : Option Int := none) : Squads :=
  let squads := squads_copy seed_squads
  if seed_date ≤ target_date then
    let events :=
      match cutoff_time with
      | some ct =>
        transfer_events.filter fun (e : Ev) =>
          decide (e.t < combine target_date ct) && decide (seed_date < dateOf e.t)
      | none =>
        transfer_events.filter fun (e : Ev) =>
          decide (seed_date < dateOf e.t) && decide (dateOf e.t ≤ target_date)
    let events := events.insertionSort evLe
    events.foldl (fun st e => applyEv e st) squads
  else
    let events :=
      transfer_events.filter fun e =>
        decide (target_date < dateOf e.t) && decide (dateOf e.t ≤ seed_date)
    let events := events.insertionSort evGe
    events.foldl (fun st e => applyInvEv e st) squads

lemma squads_copy_eq (s : Squads) : squads_copy s = s := by
  unfold squads_copy
  induction s with
  | nil => rfl
  | cons p rest ih => simp [ih]

/-- **C1** For every seed snapshot and event log, reconstructing at the seed
date itself (no cutoff) returns the seed mapping unchanged: no event passes
the range filter `seed_date < t.date() <= target_date`. -/
theorem reconstruct_at_seed_date_fixpoint (seed_date : Date) (seed_squads : Squads)
    (transfer_events : List Ev) :
    reconstruct_squads_at_date seed_date seed_squads transfer_events seed_date none
      = seed_squads := by
  unfold reconstruct_squads_at_date
  have hfilter :
      (transfer_events.filter fun e =>
        decide (seed_date < dateOf e.t) && decide (dateOf e.t ≤ seed_date)) = [] := by
    apply List.filter_eq_nil_iff.mpr
    intro e _
    simp only [Bool.and_eq_true, decide_eq_true_eq, not_and]
    intro h₁ h₂
    exact absurd (lt_of_lt_of_le h₁ h₂) (lt_irrefl _)
  simp [hfilter, squads_copy_eq]

lemma lookupSq_upsert_self (k : Int) (f : Finset Int → Finset Int) (s : Squads) :
    lookupSq k (upsert k f s) = some (f (getSq s k)) := by
  induction s with
  | nil => simp [upsert, lookupSq, getSq]
  | cons p rest ih =>
    obtain ⟨k', v⟩ := p
    by_cases h : k' = k
    · subst h; simp [upsert, lookupSq, getSq]
    · simp [upsert, lookupSq, getSq, h, ih]

lemma lookupSq_upsert_ne {m k : Int} (h : m ≠ k) (f : Finset Int → Finset Int)
    (s : Squads) : lookupSq m (upsert k f s) = lookupSq m s := by
  induction s with
  | nil =>
    simp only [upsert, lookupSq]
    rw [if_neg (fun hh => h (Eq.symm hh))]
  | cons p rest ih =>
    obtain ⟨k', v⟩ := p
    by_cases hk : k' = k
    · subst hk
      have : k' ≠ m := fun hh => h (hh.symm)
      simp [upsert, lookupSq, this]
    · by_cases hm : k' = m
      · subst hm; simp [upsert, lookupSq, hk]
      · simp [upsert, lookupSq, hk, hm, ih]

lemma isSome_lookupSq_upsert (m k : Int) (f : Finset Int → Finset Int) (s : Squads) :
    (lookupSq m (upsert k f s)).isSome ↔ (lookupSq m s).isSome ∨ m = k := by
  by_cases h : m = k
  · subst h; simp [lookupSq_upsert_self]
  · simp [lookupSq_upsert_ne h, h]

lemma isSome_lookupSq_applyEv (m : Int) (e : Ev) (s : Squads) :
    (lookupSq m (applyEv e s)).isSome ↔
      (lookupSq m s).isSome ∨ m = e.fromId ∨ m = e.toId := by
  unfold applyEv
  rw [isSome_lookupSq_upsert, isSome_lookupSq_upsert]
  tauto

lemma isSome_lookupSq_applyInvEv (m : Int) (e : Ev) (s : Squads) :
    (lookupSq m (applyInvEv e s)).isSome ↔
      (lookupSq m s).isSome ∨ m = e.fromId ∨ m = e.toId := by
  unfold applyInvEv
  rw [isSome_lookupSq_upsert, isSome_lookupSq_upsert]
  tauto

lemma isSome_foldl_applyEv (l : List Ev) (s : Squads) (m : Int) :
    (lookupSq m (l.foldl (fun st e => applyEv e st) s)).isSome ↔
      (lookupSq m s).isSome ∨ ∃ e ∈ l, m = e.fromId ∨ m = e.toId := by
  induction l generalizing s with
  | nil => simp
  | cons e l ih =>
    rw [List.foldl_cons, ih, isSome_lookupSq_applyEv]
    simp only [List.mem_cons]
    constructor
    · rintro ((h | h | h) | ⟨e', he', h⟩)
      · exact Or.inl h
      · exact Or.inr ⟨e, Or.inl rfl, Or.inl h⟩
      · exact Or.inr ⟨e, Or.inl rfl, Or.inr h⟩
      · exact Or.inr ⟨e', Or.inr he', h⟩
    · rintro (h | ⟨e', (rfl | he'), h⟩)
      · exact Or.inl (Or.inl h)
      · exact Or.inl (Or.inr h)
      · exact Or.inr ⟨e', he', h⟩

lemma isSome_foldl_applyInvEv (l : List Ev) (s : Squads) (m : Int) :
    (lookupSq m (l.foldl (fun st e => applyInvEv e st) s)).isSome ↔
      (lookupSq m s).isSome ∨ ∃ e ∈ l, m = e.fromId ∨ m = e.toId := by
  induction l generalizing s with
  | nil => simp
  | cons e l ih =>
    rw [List.foldl_cons, ih, isSome_lookupSq_applyInvEv]
    simp only [List.mem_cons]
    constructor
    · rintro ((h | h | h) | ⟨e', he', h⟩)
      · exact Or.inl h
      · exact Or.inr ⟨e, Or.inl rfl, Or.inl h⟩
      · exact Or.inr ⟨e, Or.inl rfl, Or.inr h⟩
      · exact Or.inr ⟨e', Or.inr he', h⟩
    · rintro (h | ⟨e', (rfl | he'), h⟩)
      · exact Or.inl (Or.inl h)
      · exact Or.inl (Or.inr h)
      · exact Or.inr ⟨e', he', h⟩

/-- The range filter `reconstruct_squads_at_date` applies in each of its three
branches (forward with cutoff, forward end-of-day, backward). -/
def appliedFilter (seed_date target_date : Date) (cutoff_time : Option Int)
    (e : Ev) : Bool :=
  if seed_date ≤ target_date then
    match cutoff_time with
    | some ct =>
      decide (e.t < combine target_date ct) && decide (seed_date < dateOf e.t)
    | none =>
      decide (seed_date < dateOf e.t) && decide (dateOf e.t ≤ target_date)
  else decide (target_date < dateOf e.t) && decide (dateOf e.t ≤ seed_date)

lemma mem_insertionSort {r : Ev → Ev → Prop} [DecidableRel r] (l : List Ev) (e : Ev) :
    e ∈ l.insertionSort r ↔ e ∈ l :=
  (List.perm_insertionSort r l).mem_iff

/-- **C10** The key set of the reconstructed mapping is exactly the seed's keys
united with the from/to managers of every event passing the branch's range
filter: managers mentioned only in applied events are added, and no seed
manager is ever dropped. -/
theorem reconstruct_keys_characterization (seed_date : Date) (seed_squads : Squads)
    (transfer_events : List Ev) (target_date : Date) (cutoff_time : Option Int)
    (m : Int) :
    (lookupSq m
        (reconstruct_squads_at_date seed_date seed_squads transfer_events
          target_date cutoff_time)).isSome ↔
      (lookupSq m seed_squads).isSome ∨
        ∃ e ∈ transfer_events,
          appliedFilter seed_date target_date cutoff_time e = true ∧
            (m = e.fromId ∨ m = e.toId) := by
  unfold reconstruct_squads_at_date appliedFilter
  by_cases h : seed_date ≤ target_date
  · cases cutoff_time with
    | some ct =>
      simp only [if_pos h]
      rw [isSome_foldl_applyEv]
      rw [squads_copy_eq]
      constructor
      · rintro (hs | ⟨e, he, hm⟩)
        · exact Or.inl hs
        · rw [mem_insertionSort] at he
          rw [List.mem_filter] at he
          exact Or.inr ⟨e, he.1, he.2, hm⟩
      · rintro (hs | ⟨e, he, hf, hm⟩)
        · exact Or.inl hs
        · refine Or.inr ⟨e, ?_, hm⟩
          rw [mem_insertionSort, List.mem_filter]
          exact ⟨he, hf⟩
    | none =>
      simp only [if_pos h]
      rw [isSome_foldl_applyEv]
      rw [squads_copy_eq]
      constructor
      · rintro (hs | ⟨e, he, hm⟩)
        · exact Or.inl hs
        · rw [mem_insertionSort] at he
          rw [List.mem_filter] at he
          exact Or.inr ⟨e, he.1, he.2, hm⟩
      · rintro (hs | ⟨e, he, hf, hm⟩)
        · exact Or.inl hs
        · refine Or.inr ⟨e, ?_, hm⟩
          rw [mem_insertionSort, List.mem_filter]
          exact ⟨he, hf⟩
  · simp only [if_neg h]
    rw [isSome_foldl_applyInvEv]
    rw [squads_copy_eq]
    constructor
    · rintro (hs | ⟨e, he, hm⟩)
      · exact Or.inl hs
      · rw [mem_insertionSort] at he
        rw [List.mem_filter] at he
        exact Or.inr ⟨e, he.1, he.2, hm⟩
    · rintro (hs | ⟨e, he, hf, hm⟩)
      · exact Or.inl hs
      · refine Or.inr ⟨e, ?_, hm⟩
        rw [mem_insertionSort, List.mem_filter]
        exact ⟨he, hf⟩

/-- Forward replay as the claim words it: select events with
`anchor_date < event_time <= (target_date, cutoff_time)` (boundary instant
included), sort ascending by timestamp, apply each. -/
def forwardReplayClaimed (seed_date : Date) (seed_squads : Squads)
    (transfer_events : List Ev) (target_date : Date) (ct : Int) : Squads :=
  let sel := transfer_events.filter fun (e : Ev) =>
    decide (seed_date < dateOf e.t) && decide (e.t ≤ combine target_date ct)
  (sel.insertionSort evLe).foldl (fun st e => applyEv e st) (squads_copy seed_squads)

/-- Forward replay per the amended claim: with a cutoff, events strictly
before the instant `(target_date, cutoff_time)` (an event exactly at the
cutoff instant is excluded); without a cutoff, events up to end of
`target_date`; always `anchor_date < event_time`, ascending by timestamp. -/
def forwardReplaySpec (seed_date : Date) (seed_squads : Squads)
    (transfer_events : List Ev) (target_date : Date)
    (cutoff_time : Option Int) : Squads :=
  let sel := transfer_events.filter fun (e : Ev) =>
    decide (seed_date < dateOf e.t) &&
      match cutoff_time with
      | some ct => decide (e.t < combine target_date ct)
      | none => decide (dateOf e.t ≤ target_date)
  (sel.insertionSort evLe).foldl (fun st e => applyEv e st) (squads_copy seed_squads)

/-- **C3, counterexample** An event timestamped exactly at
`(target_date, cutoff_time)` is NOT applied by the source (strict `<` on the
cutoff instant), while the claim's selection rule (`<=`) applies it: at this
concrete input the two disagree. -/
theorem reconstruct_cutoff_boundary_counterexample :
    reconstruct_squads_at_date 0 [(1, ({9} : Finset Int)), (2, ∅)]
        [⟨combine 2 240, 1, 2, 9⟩] 2 (some 240)
      ≠ forwardReplayClaimed 0 [(1, ({9} : Finset Int)), (2, ∅)]
          [⟨combine 2 240, 1, 2, 9⟩] 2 240 := by decide

/-- **C3, amended** In forward replay (`target_date >= seed_date`),
`reconstruct_squads_at_date` applies exactly the events with
`seed_date < event_date` and timestamp strictly before
`(target_date, cutoff_time)` when a cutoff is given (an event exactly at the
cutoff instant is excluded), or with event date at most `target_date` when
no cutoff is given, in ascending timestamp order. -/
theorem reconstruct_forward_applies_spec_events (seed_date : Date)
    (seed_squads : Squads) (transfer_events : List Ev) (target_date : Date)
    (cutoff_time : Option Int) (h : seed_date ≤ target_date) :
    reconstruct_squads_at_date seed_date seed_squads transfer_events
        target_date cutoff_time
      = forwardReplaySpec seed_date seed_squads transfer_events target_date
          cutoff_time := by
  unfold reconstruct_squads_at_date forwardReplaySpec
  rw [if_pos h]
  cases cutoff_time with
  | some ct =>
    have hfil :
        (transfer_events.filter fun (e : Ev) =>
            decide (e.t < combine target_date ct) && decide (seed_date < dateOf e.t))
          = (transfer_events.filter fun (e : Ev) =>
              decide (seed_date < dateOf e.t) && decide (e.t < combine target_date ct)) := by
      apply List.filter_congr
      intro e _
      exact Bool.and_comm _ _
    simp only [hfil]
  | none => rfl

/-- Witness for the amended C3 theorem at a concrete forward input. -/
theorem reconstruct_forward_applies_spec_events_witness :
    (0 : Date) ≤ 2 ∧
      reconstruct_squads_at_date 0 [(1, ({5, 7} : Finset Int)), (2, ∅)]
          [⟨combine 1 600, 1, 2, 5⟩, ⟨combine 2 240, 1, 2, 7⟩] 2 (some 240)
        = forwardReplaySpec 0 [(1, ({5, 7} : Finset Int)), (2, ∅)]
            [⟨combine 1 600, 1, 2, 5⟩, ⟨combine 2 240, 1, 2, 7⟩] 2 (some 240) :=
  ⟨by decide,
    reconstruct_forward_applies_spec_events 0
      [(1, ({5, 7} : Finset Int)), (2, ∅)]
      [⟨combine 1 600, 1, 2, 5⟩, ⟨combine 2 240, 1, 2, 7⟩] 2 (some 240) (by decide)⟩

lemma upsert_upsert_same (k : Int) (f g : Finset Int → Finset Int) (s : Squads) :
    upsert k f (upsert k g s) = upsert k (fun v => f (g v)) s := by
  induction s with
  | nil => simp [upsert]
  | cons p rest ih =>
    obtain ⟨k', v⟩ := p
    by_cases h : k' = k
    · simp [upsert, h]
    · simp [upsert, h, ih]

lemma upsert_eq_self {k : Int} {v : Finset Int} {f : Finset Int → Finset Int}
    {s : Squads} (hl : lookupSq k s = some v) (hf : f v = v) :
    upsert k f s = s := by
  induction s with
  | nil => simp [lookupSq] at hl
  | cons p rest ih =>
    obtain ⟨k', w⟩ := p
    by_cases h : k' = k
    · subst h
      simp only [lookupSq, if_true, eq_self_iff_true, Option.some.injEq] at hl
      subst hl
      simp [upsert, hf]
    · simp only [lookupSq, if_neg h] at hl
      simp [upsert, h, ih hl]

/-- Exactness of one forward step: the source manager holds the asset, the
destination manager exists in the mapping and does not hold it. -/
def fwdStepExact (e : Ev) (s : Squads) : Bool :=
  decide (e.assetId ∈ getSq s e.fromId) && (lookupSq e.toId s).isSome &&
    decide (e.assetId ∉ getSq s e.toId)

/-- Exactness of one backward step: the destination manager holds the asset,
the source manager exists in the mapping and does not hold it. -/
def backStepExact (e : Ev) (s : Squads) : Bool :=
  decide (e.assetId ∈ getSq s e.toId) && (lookupSq e.fromId s).isSome &&
    decide (e.assetId ∉ getSq s e.fromId)

/-- Every event of the (ascending) list is exact at its forward application
state. -/
def fwdChainExact (s : Squads) : List Ev → Bool
  | [] => true
  | e :: l => fwdStepExact e s && fwdChainExact (applyEv e s) l

/-- Every event of the (ascending) list is exact at its inverse-application
state, inverses being applied from the latest event backwards. -/
def backChainExact (s : Squads) : List Ev → Bool
  | [] => true
  | e :: l =>
    backStepExact e (l.foldr (fun e' acc => applyInvEv e' acc) s) &&
      backChainExact s l

lemma applyInvEv_applyEv (e : Ev) (s : Squads) (h : fwdStepExact e s = true) :
    applyInvEv e (applyEv e s) = s := by
  unfold fwdStepExact at h
  simp only [Bool.and_eq_true, decide_eq_true_eq] at h
  obtain ⟨⟨h₁, h₂⟩, h₃⟩ := h
  have hf : lookupSq e.fromId s ≠ none := by
    intro hn
    rw [getSq, hn] at h₁
    simp at h₁
  obtain ⟨vf, hvf⟩ := Option.ne_none_iff_exists'.mp hf
  obtain ⟨vt, hvt⟩ := Option.isSome_iff_exists.mp h₂
  have hvfa : e.assetId ∈ vf := by rw [getSq, hvf] at h₁; exact h₁
  have hvta : e.assetId ∉ vt := by rw [getSq, hvt] at h₃; exact h₃
  have hft : e.fromId ≠ e.toId := by
    intro hEq
    rw [hEq] at h₁
    exact h₃ h₁
  unfold applyEv applyInvEv
  rw [upsert_upsert_same]
  have hlt : lookupSq e.toId (upsert e.fromId (fun v => v.erase e.assetId) s)
      = some vt := by
    rw [lookupSq_upsert_ne (fun hh => hft (Eq.symm hh))]
    exact hvt
  rw [upsert_eq_self hlt (Finset.erase_insert hvta)]
  rw [upsert_upsert_same]
  exact upsert_eq_self hvf (Finset.insert_erase hvfa)

lemma applyEv_applyInvEv (e : Ev) (s : Squads) (h : backStepExact e s = true) :
    applyEv e (applyInvEv e s) = s := by
  unfold backStepExact at h
  simp only [Bool.and_eq_true, decide_eq_true_eq] at h
  obtain ⟨⟨h₁, h₂⟩, h₃⟩ := h
  have ht : lookupSq e.toId s ≠ none := by
    intro hn
    rw [getSq, hn] at h₁
    simp at h₁
  obtain ⟨vt, hvt⟩ := Option.ne_none_iff_exists'.mp ht
  obtain ⟨vf, hvf⟩ := Option.isSome_iff_exists.mp h₂
  have hvta : e.assetId ∈ vt := by rw [getSq, hvt] at h₁; exact h₁
  have hvfa : e.assetId ∉ vf := by rw [getSq, hvf] at h₃; exact h₃
  have hft : e.fromId ≠ e.toId := by
    intro hEq
    rw [hEq] at h₃
    exact h₃ h₁
  unfold applyEv applyInvEv
  rw [upsert_upsert_same]
  have hlf : lookupSq e.fromId (upsert e.toId (fun v => v.erase e.assetId) s)
      = some vf := by
    rw [lookupSq_upsert_ne hft]
    exact hvf
  rw [upsert_eq_self hlf (Finset.erase_insert hvfa)]
  rw [upsert_upsert_same]
  exact upsert_eq_self hvt (Finset.insert_erase hvta)

lemma foldr_applyInv_foldl_applyEv (l : List Ev) (s : Squads)
    (h : fwdChainExact s l = true) :
    l.foldr (fun e acc => applyInvEv e acc)
        (l.foldl (fun st e => applyEv e st) s) = s := by
  induction l generalizing s with
  | nil => rfl
  | cons e l ih =>
    unfold fwdChainExact at h
    rw [Bool.and_eq_true] at h
    rw [List.foldl_cons, List.foldr_cons, ih (applyEv e s) h.2]
    exact applyInvEv_applyEv e s h.1

lemma foldl_applyEv_foldr_applyInv (l : List Ev) (s : Squads)
    (h : backChainExact s l = true) :
    l.foldl (fun st e => applyEv e st)
        (l.foldr (fun e acc => applyInvEv e acc) s) = s := by
  induction l with
  | nil => rfl
  | cons e l ih =>
    unfold backChainExact at h
    rw [Bool.and_eq_true] at h
    rw [List.foldr_cons, List.foldl_cons, applyEv_applyInvEv _ _ h.1]
    exact ih h.2

/-- Strictly-descending timestamp order, used to identify the stable
descending sort with the reverse of the stable ascending sort when all
timestamps are distinct. -/
@[reducible] def evGt (a b : Ev) : Prop := b.t < a.t

instance : IsAntisymm Ev evGt :=
  ⟨fun _ _ h₁ h₂ => absurd (lt_trans h₁ h₂) (lt_irrefl _)⟩

lemma insertionSort_ge_eq_reverse (l : List Ev) (h : (l.map Ev.t).Nodup) :
    l.insertionSort evGe = (l.insertionSort evLe).reverse := by
  have pAsc : List.Perm (l.insertionSort evLe) l := List.perm_insertionSort evLe l
  have pDesc : List.Perm (l.insertionSort evGe) l := List.perm_insertionSort evGe l
  have hneAsc : (l.insertionSort evLe).Pairwise (fun a b => a.t ≠ b.t) := by
    have : ((l.insertionSort evLe).map Ev.t).Nodup :=
      ((pAsc.map Ev.t).nodup_iff).mpr h
    exact List.pairwise_map.mp this
  have hneDesc : (l.insertionSort evGe).Pairwise (fun a b => a.t ≠ b.t) := by
    have : ((l.insertionSort evGe).map Ev.t).Nodup :=
      ((pDesc.map Ev.t).nodup_iff).mpr h
    exact List.pairwise_map.mp this
  have sAsc : (l.insertionSort evLe).Pairwise (fun a b => a.t < b.t) :=
    ((List.sorted_insertionSort evLe l).and hneAsc).imp
      (fun hab => lt_of_le_of_ne hab.1 hab.2)
  have sDesc : (l.insertionSort evGe).Pairwise evGt :=
    ((List.sorted_insertionSort evGe l).and hneDesc).imp
      (fun hab => lt_of_le_of_ne hab.1 (fun hh => hab.2 (Eq.symm hh)))
  have sRev : ((l.insertionSort evLe).reverse).Pairwise evGt :=
    List.pairwise_reverse.mpr sAsc
  have pRev : List.Perm ((l.insertionSort evLe).reverse) l :=
    (List.reverse_perm (l.insertionSort evLe)).trans pAsc
  exact List.eq_of_perm_of_sorted (pDesc.trans pRev.symm) sDesc sRev

lemma reconstruct_eq_forward (seed_date : Date) (seed_squads : Squads)
    (transfer_events : List Ev) (target_date : Date)
    (hle : seed_date ≤ target_date) :
    reconstruct_squads_at_date seed_date seed_squads transfer_events
        target_date none
      = ((transfer_events.filter fun (e : Ev) =>
            decide (seed_date < dateOf e.t) &&
              decide (dateOf e.t ≤ target_date)).insertionSort evLe).foldl
          (fun st e => applyEv e st) seed_squads := by
  unfold reconstruct_squads_at_date
  rw [if_pos hle, squads_copy_eq]

lemma reconstruct_eq_backward (seed_date : Date) (seed_squads : Squads)
    (transfer_events : List Ev) (target_date : Date)
    (hgt : ¬ seed_date ≤ target_date) :
    reconstruct_squads_at_date seed_date seed_squads transfer_events
        target_date none
      = ((transfer_events.filter fun (e : Ev) =>
            decide (target_date < dateOf e.t) &&
              decide (dateOf e.t ≤ seed_date)).insertionSort evGe).foldl
          (fun st e => applyInvEv e st) seed_squads := by
  unfold reconstruct_squads_at_date
  rw [if_neg hgt, squads_copy_eq]

lemma nodup_filter_map_t (l : List Ev) (p : Ev → Bool)
    (h : (l.map Ev.t).Nodup) : ((l.filter p).map Ev.t).Nodup :=
  h.sublist ((List.filter_sublist l).map Ev.t)

lemma range_filter_self_nil (d : Date) (l : List Ev) :
    (l.filter fun (e : Ev) =>
      decide (d < dateOf e.t) && decide (dateOf e.t ≤ d)) = [] := by
  apply List.filter_eq_nil_iff.mpr
  intro e _
  simp only [Bool.and_eq_true, decide_eq_true_eq, not_and]
  intro h₁ h₂
  exact absurd (lt_of_lt_of_le h₁ h₂) (lt_irrefl _)

/-- **C2, counterexample** Forward replay followed by backward replay is not
the identity in general: with seed `{1: {}}` and one event moving asset 5
from manager 1 (who does not hold it) to manager 2, the round trip yields
`{5}` for manager 1 while the seed holds `{}` for manager 1. -/
theorem reconstruct_roundtrip_counterexample :
    lookupSq 1
        (reconstruct_squads_at_date 1
          (reconstruct_squads_at_date 0 [(1, (∅ : Finset Int))]
            [⟨combine 1 600, 1, 2, 5⟩] 1 none)
          [⟨combine 1 600, 1, 2, 5⟩] 0 none)
      ≠ lookupSq 1 [(1, (∅ : Finset Int))] := by decide

/-- **C2, amended** Forward replay followed by backward replay over the same
events is the identity, provided the events have pairwise distinct
timestamps and every event applied in range is exact at its application
state (its source manager holds the asset and its destination manager is
present in the mapping and does not hold the asset — so replay performs no
no-op discard, no duplicate add, and creates no key). -/
theorem reconstruct_roundtrip_identity (seed_date : Date) (seed_squads : Squads)
    (transfer_events : List Ev) (D : Date)
    (hts : (transfer_events.map Ev.t).Nodup)
    (hfwd : seed_date ≤ D →
      fwdChainExact seed_squads
          ((transfer_events.filter fun (e : Ev) =>
            decide (seed_date < dateOf e.t) &&
              decide (dateOf e.t ≤ D)).insertionSort evLe) = true)
    (hback : D < seed_date →
      backChainExact seed_squads
          ((transfer_events.filter fun (e : Ev) =>
            decide (D < dateOf e.t) &&
              decide (dateOf e.t ≤ seed_date)).insertionSort evLe) = true) :
    reconstruct_squads_at_date D
        (reconstruct_squads_at_date seed_date seed_squads transfer_events D none)
        transfer_events seed_date none
      = seed_squads := by
  by_cases hD : seed_date ≤ D
  · rcases lt_or_eq_of_le hD with hlt | heq
    · have hDnot : ¬ D ≤ seed_date := not_le.mpr hlt
      rw [reconstruct_eq_forward seed_date seed_squads transfer_events D hD]
      rw [reconstruct_eq_backward D _ transfer_events seed_date hDnot]
      rw [insertionSort_ge_eq_reverse _ (nodup_filter_map_t _ _ hts)]
      rw [List.foldl_reverse]
      exact foldr_applyInv_foldl_applyEv _ seed_squads (hfwd hD)
    · subst heq
      rw [reconstruct_eq_forward seed_date seed_squads transfer_events seed_date
        le_rfl]
      rw [range_filter_self_nil]
      rw [reconstruct_eq_forward seed_date _ transfer_events seed_date le_rfl]
      rw [range_filter_self_nil]
      rfl
  · have hlt : D < seed_date := not_le.mp hD
    rw [reconstruct_eq_backward seed_date seed_squads transfer_events D hD]
    rw [reconstruct_eq_forward D _ transfer_events seed_date (le_of_lt hlt)]
    rw [insertionSort_ge_eq_reverse _ (nodup_filter_map_t _ _ hts)]
    rw [List.foldl_reverse]
    exact foldl_applyEv_foldr_applyInv _ seed_squads (hback hlt)

/-- Witness for the amended C2 theorem: a well-formed one-event log replayed
forward to day 2 and back to day 0 returns the seed. -/
theorem reconstruct_roundtrip_identity_witness :
    (([⟨combine 1 600, 1, 2, 5⟩] : List Ev).map Ev.t).Nodup ∧
      reconstruct_squads_at_date 2
          (reconstruct_squads_at_date 0 [(1, ({5} : Finset Int)), (2, ∅)]
            [⟨combine 1 600, 1, 2, 5⟩] 2 none)
          [⟨combine 1 600, 1, 2, 5⟩] 0 none
        = [(1, ({5} : Finset Int)), (2, ∅)] :=
  ⟨by decide,
    reconstruct_roundtrip_identity 0 [(1, ({5} : Finset Int)), (2, ∅)]
      [⟨combine 1 600, 1, 2, 5⟩] 2 (by decide) (fun _ => by decide)
      (fun h => absurd h (by decide))⟩

/-- `transfer_settlement_date` (config.py lines 80-84), with the
env-configured module constant `CUTOFF_HOUR_MEZ` (default 4) passed as the
`cutoff_hour` parameter: before the cutoff hour the event settles on the
previous day. -/
def transfer_settlement_date (cutoff_hour : Int) (dt : DT) : Date :=
  if hourOf dt < cutoff_hour then dateOf dt - 1 else dateOf dt

lemma dateOf_combine (d : Date) (tod : Int) (h₀ : 0 ≤ tod) (h₁ : tod < 1440) :
    dateOf (combine d tod) = d := by
  unfold dateOf combine
  rw [Int.fdiv_eq_ediv _ (by norm_num)]
  rw [Int.add_comm, Int.add_mul_ediv_right _ _ (by norm_num : (1440 : Int) ≠ 0)]
  rw [Int.ediv_eq_zero_of_lt h₀ h₁]
  exact Int.zero_add d

lemma hourOf_combine (d : Date) (tod : Int) :
    hourOf (combine d tod) = Int.fdiv (Int.emod tod 1440) 60 := by
  unfold hourOf combine
  have h : Int.emod (d * 1440 + tod) 1440 = Int.emod tod 1440 := by
    show (d * 1440 + tod) % 1440 = tod % 1440
    rw [Int.add_comm, Int.add_mul_emod_self]
  rw [h]

/-- **C8** The settlement-day mapper returns the previous calendar day exactly
when the timestamp's hour is strictly below the cutoff hour, and the
timestamp's own date otherwise; with cutoff 4, 03:59 on a day maps to the
previous day and 04:01 maps to the day itself. -/
theorem transfer_settlement_date_spec (cutoff_hour : Int) (dt : DT) :
    (transfer_settlement_date cutoff_hour dt = dateOf dt - 1 ↔
        hourOf dt < cutoff_hour) ∧
      (transfer_settlement_date cutoff_hour dt = dateOf dt ↔
        ¬ hourOf dt < cutoff_hour) ∧
      ∀ d : Date,
        transfer_settlement_date 4 (combine d 239) = d - 1 ∧
          transfer_settlement_date 4 (combine d 241) = d := by
  refine ⟨?_, ?_, ?_⟩
  · unfold transfer_settlement_date
    by_cases h : hourOf dt < cutoff_hour
    · simp [h]
    · rw [if_neg h]
      constructor
      · intro hEq
        exact absurd hEq (ne_of_gt (sub_one_lt _))
      · intro hh
        exact absurd hh h
  · unfold transfer_settlement_date
    by_cases h : hourOf dt < cutoff_hour
    · rw [if_pos h]
      constructor
      · intro hEq
        exact absurd hEq (ne_of_lt (sub_one_lt _))
      · intro hh
        exact absurd h hh
    · rw [if_neg h]
      simp [h]
  · intro d
    have h239 : hourOf (combine d 239) = 3 := by
      rw [hourOf_combine]
      rfl
    have h241 : hourOf (combine d 241) = 4 := by
      rw [hourOf_combine]
      rfl
    constructor
    · unfold transfer_settlement_date
      rw [h239, if_pos (by norm_num), dateOf_combine d 239 (by norm_num) (by norm_num)]
    · unfold transfer_settlement_date
      rw [h241, if_neg (by norm_num), dateOf_combine d 241 (by norm_num) (by norm_num)]

/-- One asset's cached valuation rows: the Python inner dict
`cache[tradable_id]["YYYY-MM-DD"] = price`, insertion ordered with unique
keys (ISO strings are modelled as the parsed day numbers; the source skips
unparseable keys, absent here). -/
abbrev QuoteRow := List (Date × Int)

/-- The quote cache `cache : dict[int, dict[str, int]]`. -/
abbrev QuoteCache := Int → Option QuoteRow

/-- Inner-dict lookup `cache[tid].get(key)` (first matching key). -/
def findDate (l : QuoteRow) (dte : Date) : Option Int :=
  match l with
  | [] => none
  | (k, v) :: rest => if k = dte then some v else findDate rest dte

/-- One step of the best-date scan (salary_from_squads.py lines 85-91):
`if cdate <= d and (best_date is None or cdate > best_date): best_date = cdate`. -/
def betterDate (d : Date) : Option Date → Date → Option Date
  | none, c => if c ≤ d then some c else none
  | some b, c => if c ≤ d ∧ b < c then some c else some b

/-- The best-date scan: latest cached date `<= d`, `none` when no date
qualifies. -/
def bestLE (d : Date) (l : QuoteRow) : Option Date :=
  l.foldl (fun best p => betterDate d best p.1) none

/-- Dict assignment `row[key] = price`: replaces the value in place when the
key exists, else appends. -/
def updEntry (l : QuoteRow) (dte : Date) (v : Int) : QuoteRow :=
  match l with
  | [] => [(dte, v)]
  | (k, w) :: rest => if k = dte then (k, v) :: rest else (k, w) :: updEntry rest dte v

/-- The fetch continuation of `_get_value_for_date` (salary_from_squads.py
lines 94-114): fetch the asset's full quote history, merge every point into
the cache row, then retry exact hit, best-date fallback, default 0.
The third component records that a fetch happened. -/
def fetchQuotes (hist : Int → QuoteRow) (tradable_id : Int) (d : Date)
    (cache : QuoteCache) : Int × QuoteCache × Bool :=
  let start := (cache tradable_id).getD []
  let merged := (hist tradable_id).foldl (fun acc p => updEntry acc p.1 p.2) start
  let cache' : QuoteCache := fun a => if a = tradable_id then some merged else cache a
  let val :=
    match findDate merged d with
    | some v => v
    | none =>
      match bestLE d merged with
      | some bd => (findDate merged bd).getD 0
      | none => 0
  (val, cache', true)

/-- `_get_value_for_date` (salary_from_squads.py lines 72-114).  Returns
`(value, cache_after, fetched)`; the source mutates `cache` in place and
calls the quote-history API (modelled by `hist`) exactly when `fetched` is
true.  Indexing `cache[tid][best.isoformat()]` at a key produced by the scan
is modelled with `.getD 0` (the key is always present there). -/
def get_value_for_date (hist : Int → QuoteRow) (tradable_id : Int) (d : Date)
    (cache : QuoteCache) : Int × QuoteCache × Bool :=
  match cache tradable_id with
  | some row =>
    match findDate row d with
    | some v => (v, cache, false)
    | none =>
      match bestLE d row with
      | some bd => ((findDate row bd).getD 0, cache, false)
      | none => fetchQuotes hist tradable_id d cache
  | none => fetchQuotes hist tradable_id d cache

lemma betterDate_none_eq (d c : Date) :
    betterDate d none c = if c ≤ d then some c else none := rfl

lemma betterDate_some_eq (d a c : Date) :
    betterDate d (some a) c = if c ≤ d ∧ a < c then some c else some a := rfl

lemma betterDate_le {d : Date} {best : Option Date} {c : Date}
    (hacc : ∀ a, best = some a → a ≤ d) :
    ∀ b, betterDate d best c = some b → b ≤ d := by
  intro b hb
  cases best with
  | none =>
    rw [betterDate_none_eq] at hb
    by_cases h : c ≤ d
    · rw [if_pos h] at hb
      cases hb
      exact h
    · rw [if_neg h] at hb
      cases hb
  | some a =>
    rw [betterDate_some_eq] at hb
    by_cases h : c ≤ d ∧ a < c
    · rw [if_pos h] at hb
      cases hb
      exact h.1
    · rw [if_neg h] at hb
      cases hb
      exact hacc _ rfl

lemma betterDate_eq_none {d c : Date} {best : Option Date}
    (h : betterDate d best c = none) : best = none ∧ ¬ c ≤ d := by
  cases best with
  | none =>
    rw [betterDate_none_eq] at h
    by_cases hc : c ≤ d
    · rw [if_pos hc] at h
      cases h
    · exact ⟨rfl, hc⟩
  | some a =>
    rw [betterDate_some_eq] at h
    by_cases hc : c ≤ d ∧ a < c
    · rw [if_pos hc] at h
      cases h
    · rw [if_neg hc] at h
      cases h

lemma betterDate_eq_some {d c b : Date} {best : Option Date}
    (h : betterDate d best c = some b) : best = some b ∨ b = c := by
  cases best with
  | none =>
    rw [betterDate_none_eq] at h
    by_cases hc : c ≤ d
    · rw [if_pos hc] at h
      cases h
      exact Or.inr rfl
    · rw [if_neg hc] at h
      cases h
  | some a =>
    rw [betterDate_some_eq] at h
    by_cases hc : c ≤ d ∧ a < c
    · rw [if_pos hc] at h
      cases h
      exact Or.inr rfl
    · rw [if_neg hc] at h
      exact Or.inl h

lemma betterDate_some_of_le {d c : Date} (best : Option Date) (hpd : c ≤ d) :
    ∃ b', betterDate d best c = some b' ∧ c ≤ b' ∧
      ∀ a, best = some a → a ≤ b' := by
  cases best with
  | none =>
    refine ⟨c, ?_, le_refl c, fun a ha => by cases ha⟩
    rw [betterDate_none_eq, if_pos hpd]
  | some a =>
    by_cases hc : a < c
    · refine ⟨c, ?_, le_refl c, fun a' ha' => ?_⟩
      · rw [betterDate_some_eq, if_pos ⟨hpd, hc⟩]
      · cases ha'
        exact le_of_lt hc
    · refine ⟨a, ?_, not_lt.mp hc, fun a' ha' => ?_⟩
      · rw [betterDate_some_eq, if_neg (fun hh => hc hh.2)]
      · cases ha'
        exact le_refl a

lemma betterDate_some_acc {d c : Date} (a : Date) :
    ∃ b', betterDate d (some a) c = some b' ∧ a ≤ b' := by
  by_cases hc : c ≤ d ∧ a < c
  · refine ⟨c, ?_, le_of_lt hc.2⟩
    rw [betterDate_some_eq, if_pos hc]
  · refine ⟨a, ?_, le_refl a⟩
    rw [betterDate_some_eq, if_neg hc]

lemma bestLE_foldl_le (d : Date) (l : List (Date × Int)) :
    ∀ (acc : Option Date), (∀ a, acc = some a → a ≤ d) →
      ∀ b, l.foldl (fun best p => betterDate d best p.1) acc = some b → b ≤ d := by
  induction l with
  | nil =>
    intro acc hacc b hb
    exact hacc b hb
  | cons p rest ih =>
    intro acc hacc b hb
    rw [List.foldl_cons] at hb
    exact ih (betterDate d acc p.1) (betterDate_le hacc) b hb

lemma bestLE_foldl_none (d : Date) (l : List (Date × Int)) :
    ∀ (acc : Option Date),
      l.foldl (fun best p => betterDate d best p.1) acc = none →
        acc = none ∧ ∀ p ∈ l, ¬ p.1 ≤ d := by
  induction l with
  | nil =>
    intro acc h
    exact ⟨h, by simp⟩
  | cons p rest ih =>
    intro acc h
    rw [List.foldl_cons] at h
    obtain ⟨hstep, hrest⟩ := ih (betterDate d acc p.1) h
    obtain ⟨hacc, hp⟩ := betterDate_eq_none hstep
    refine ⟨hacc, ?_⟩
    intro q hq
    rcases List.mem_cons.mp hq with rfl | hq'
    · exact hp
    · exact hrest q hq'

lemma bestLE_foldl_mem (d : Date) (l : List (Date × Int)) :
    ∀ (acc : Option Date) (b : Date),
      l.foldl (fun best p => betterDate d best p.1) acc = some b →
        acc = some b ∨ b ∈ l.map Prod.fst := by
  induction l with
  | nil =>
    intro acc b h
    exact Or.inl h
  | cons p rest ih =>
    intro acc b h
    rw [List.foldl_cons] at h
    rcases ih (betterDate d acc p.1) b h with hstep | hmem
    · rcases betterDate_eq_some hstep with h' | h'
      · exact Or.inl h'
      · exact Or.inr (by simp [h'])
    · exact Or.inr (by simp [hmem])

lemma bestLE_foldl_ub (d : Date) (l : List (Date × Int)) :
    ∀ (acc : Option Date) (b : Date),
      l.foldl (fun best p => betterDate d best p.1) acc = some b →
        (∀ p ∈ l, p.1 ≤ d → p.1 ≤ b) ∧ (∀ a, acc = some a → a ≤ b) := by
  induction l with
  | nil =>
    intro acc b h
    refine ⟨by simp, ?_⟩
    intro a ha
    rw [ha] at h
    cases h
    exact le_refl _
  | cons p rest ih =>
    intro acc b h
    rw [List.foldl_cons] at h
    obtain ⟨hrest, hstep⟩ := ih (betterDate d acc p.1) b h
    have hpb : p.1 ≤ d → p.1 ≤ b := by
      intro hpd
      obtain ⟨b', hb', hcb', _⟩ := betterDate_some_of_le acc hpd
      exact le_trans hcb' (hstep b' hb')
    refine ⟨?_, ?_⟩
    · intro q hq hqd
      rcases List.mem_cons.mp hq with rfl | hq'
      · exact hpb hqd
      · exact hrest q hq' hqd
    · intro a ha
      subst ha
      obtain ⟨b', hb', hab'⟩ := betterDate_some_acc a
      exact le_trans hab' (hstep b' hb')

lemma findDate_isSome_of_mem_keys (l : QuoteRow) (b : Date)
    (h : b ∈ l.map Prod.fst) : ∃ v, findDate l b = some v := by
  induction l with
  | nil => simp at h
  | cons p rest ih =>
    obtain ⟨k, w⟩ := p
    by_cases hk : k = b
    · refine ⟨w, ?_⟩
      unfold findDate
      rw [if_pos hk]
    · have hb : b ∈ rest.map Prod.fst := by
        simp only [List.map_cons, List.mem_cons] at h
        rcases h with h | h
        · exact absurd h.symm hk
        · exact h
      obtain ⟨v, hv⟩ := ih hb
      refine ⟨v, ?_⟩
      unfold findDate
      rw [if_neg hk]
      exact hv

/-- **C6** If the cache holds the asset with at least one recorded date at or
before `d`, `_get_value_for_date` performs no fetch, leaves the cache
untouched, and returns the value recorded at the latest cached date `<= d`
(the exact date `d` itself when present). -/
theorem get_value_cached_no_fetch (hist : Int → QuoteRow) (tradable_id : Int)
    (d : Date) (cache : QuoteCache) (row : QuoteRow)
    (hrow : cache tradable_id = some row)
    (hex : ∃ p ∈ row, p.1 ≤ d) :
    (get_value_for_date hist tradable_id d cache).2.1 = cache ∧
      (get_value_for_date hist tradable_id d cache).2.2 = false ∧
      ∃ bd v, bd ≤ d ∧ findDate row bd = some v ∧
        (∀ p ∈ row, p.1 ≤ d → p.1 ≤ bd) ∧
        (get_value_for_date hist tradable_id d cache).1 = v := by
  cases hfd : findDate row d with
  | some v =>
    have hres : get_value_for_date hist tradable_id d cache = (v, cache, false) := by
      simp only [get_value_for_date, hrow, hfd]
    rw [hres]
    exact ⟨rfl, rfl, d, v, le_refl d, hfd, fun p _ hp => hp, rfl⟩
  | none =>
    cases hbl : bestLE d row with
    | none =>
      exfalso
      obtain ⟨p, hp, hpd⟩ := hex
      exact (bestLE_foldl_none d row none hbl).2 p hp hpd
    | some bd =>
      have hble : bd ≤ d :=
        bestLE_foldl_le d row none (fun a ha => by cases ha) bd hbl
      have hmem : bd ∈ row.map Prod.fst := by
        rcases bestLE_foldl_mem d row none bd hbl with hh | hh
        · cases hh
        · exact hh
      have hub := (bestLE_foldl_ub d row none bd hbl).1
      obtain ⟨v, hv⟩ := findDate_isSome_of_mem_keys row bd hmem
      have hres : get_value_for_date hist tradable_id d cache
          = ((findDate row bd).getD 0, cache, false) := by
        simp only [get_value_for_date, hrow, hfd, hbl]
      rw [hres, hv]
      exact ⟨rfl, rfl, bd, v, hble, hv, hub, rfl⟩

/-- Witness for C6 (the spec's Scenario 5): only `(asset 7, day 0, 50000)` is
cached; a lookup for day 2 returns 50000 with no fetch and no cache change. -/
theorem get_value_cached_no_fetch_witness :
    ((fun a => if a = 7 then some [((0 : Date), (50000 : Int))] else none) :
        QuoteCache) 7 = some [(0, 50000)] ∧
      (get_value_for_date (fun _ => []) 7 2
            (fun a => if a = 7 then some [((0 : Date), (50000 : Int))] else none)).2.1
          = (fun a => if a = 7 then some [((0 : Date), (50000 : Int))] else none) ∧
        (get_value_for_date (fun _ => []) 7 2
              (fun a => if a = 7 then some [((0 : Date), (50000 : Int))] else none)).2.2
            = false ∧
          ∃ bd v, bd ≤ 2 ∧ findDate [(0, 50000)] bd = some v ∧
            (∀ p ∈ [((0 : Date), (50000 : Int))], p.1 ≤ 2 → p.1 ≤ bd) ∧
            (get_value_for_date (fun _ => []) 7 2
                (fun a => if a = 7 then some [((0 : Date), (50000 : Int))] else none)).1
              = v :=
  ⟨by decide,
    get_value_cached_no_fetch (fun _ => []) 7 2
      (fun a => if a = 7 then some [((0 : Date), (50000 : Int))] else none)
      [(0, 50000)] (by decide) ⟨(0, 50000), by decide, by decide⟩⟩

/-- Lookup of one `(asset, date)` entry of the quote cache. -/
def entries (cache : QuoteCache) (a : Int) (dte : Date) : Option Int :=
  match cache a with
  | none => none
  | some row => findDate row dte

lemma findDate_updEntry_self (l : QuoteRow) (dte : Date) (v : Int) :
    findDate (updEntry l dte v) dte = some v := by
  induction l with
  | nil =>
    unfold updEntry findDate
    rw [if_pos rfl]
  | cons p rest ih =>
    obtain ⟨k, w⟩ := p
    by_cases hk : k = dte
    · unfold updEntry
      rw [if_pos hk]
      unfold findDate
      rw [if_pos hk]
    · unfold updEntry
      rw [if_neg hk]
      unfold findDate
      rw [if_neg hk]
      exact ih

lemma findDate_updEntry_ne (l : QuoteRow) {dte c : Date} (v : Int)
    (h : dte ≠ c) : findDate (updEntry l c v) dte = findDate l dte := by
  induction l with
  | nil =>
    unfold updEntry findDate
    rw [if_neg (fun hh => h (Eq.symm hh))]
    rfl
  | cons p rest ih =>
    obtain ⟨k, w⟩ := p
    by_cases hk : k = c
    · unfold updEntry
      rw [if_pos hk]
      unfold findDate
      by_cases hkd : k = dte
      · exact absurd (hkd.symm.trans hk) h
      · rw [if_neg hkd, if_neg hkd]
    · unfold updEntry
      rw [if_neg hk]
      unfold findDate
      by_cases hkd : k = dte
      · rw [if_pos hkd, if_pos hkd]
      · rw [if_neg hkd, if_neg hkd]
        exact ih

/-- The value the merge loop `for h_date, price in hist:
cache[tradable_id][h_date.isoformat()] = price` leaves at a given date: the
last fetched history point at that date, if any. -/
def lastFetched (hl : List (Date × Int)) (dte : Date) : Option Int :=
  hl.foldl (fun acc p => if p.1 = dte then some p.2 else acc) none

lemma lastFetched_foldl_acc (dte : Date) (hl : List (Date × Int)) :
    ∀ acc : Option Int,
      hl.foldl (fun acc p => if p.1 = dte then some p.2 else acc) acc
        = match lastFetched hl dte with
          | some w => some w
          | none => acc := by
  induction hl with
  | nil =>
    intro acc
    rfl
  | cons p rest ih =>
    intro acc
    rw [List.foldl_cons, ih (if p.1 = dte then some p.2 else acc)]
    have hcons : lastFetched (p :: rest) dte
        = rest.foldl (fun acc p => if p.1 = dte then some p.2 else acc)
            (if p.1 = dte then some p.2 else none) := rfl
    rw [hcons, ih (if p.1 = dte then some p.2 else none)]
    cases hr : lastFetched rest dte with
    | some w => rfl
    | none =>
      by_cases hp : p.1 = dte
      · rw [if_pos hp, if_pos hp]
      · rw [if_neg hp, if_neg hp]

/-- Exact effect of the merge loop on one date: the merged row holds the last
fetched point at that date when the history mentions it, and the original
row's entry otherwise. -/
lemma findDate_foldl_updEntry (dte : Date) (hl : List (Date × Int)) :
    ∀ row : QuoteRow,
      findDate (hl.foldl (fun acc p => updEntry acc p.1 p.2) row) dte
        = match lastFetched hl dte with
          | some w => some w
          | none => findDate row dte := by
  induction hl with
  | nil =>
    intro row
    rfl
  | cons p rest ih =>
    intro row
    rw [List.foldl_cons, ih (updEntry row p.1 p.2)]
    have hcons : lastFetched (p :: rest) dte
        = rest.foldl (fun acc p => if p.1 = dte then some p.2 else acc)
            (if p.1 = dte then some p.2 else none) := rfl
    rw [hcons, lastFetched_foldl_acc dte rest (if p.1 = dte then some p.2 else none)]
    cases hr : lastFetched rest dte with
    | some w => rfl
    | none =>
      by_cases hp : p.1 = dte
      · rw [if_pos hp]
        show findDate (updEntry row p.1 p.2) dte = some p.2
        rw [← hp]
        exact findDate_updEntry_self row p.1 p.2
      · rw [if_neg hp]
        show findDate (updEntry row p.1 p.2) dte = findDate row dte
        exact findDate_updEntry_ne row p.2 (fun hh => hp (Eq.symm hh))

lemma fetchQuotes_entries (hist : Int → QuoteRow) (tid : Int) (d : Date)
    (cache : QuoteCache) (a : Int) (dte : Date) (v : Int)
    (h : entries cache a dte = some v) :
    ∃ v2, entries (fetchQuotes hist tid d cache).2.1 a dte = some v2 ∧
      (v2 = v ∨ (a = tid ∧ lastFetched (hist tid) dte = some v2)) := by
  have hc : (fetchQuotes hist tid d cache).2.1
      = fun x => if x = tid
          then some ((hist tid).foldl (fun acc p => updEntry acc p.1 p.2)
            ((cache tid).getD []))
          else cache x := rfl
  by_cases ha : a = tid
  · subst ha
    cases hca : cache a with
    | none =>
      unfold entries at h
      rw [hca] at h
      cases h
    | some row =>
      unfold entries at h
      rw [hca] at h
      have hfd : findDate
            ((hist a).foldl (fun acc p => updEntry acc p.1 p.2) row) dte
          = match lastFetched (hist a) dte with
            | some w => some w
            | none => findDate row dte :=
        findDate_foldl_updEntry dte (hist a) row
      have hent : entries (fetchQuotes hist a d cache).2.1 a dte
          = findDate ((hist a).foldl (fun acc p => updEntry acc p.1 p.2) row)
              dte := by
        unfold entries
        rw [hc]
        simp only [hca, Option.getD_some, eq_self_iff_true, if_true]
      cases hr : lastFetched (hist a) dte with
      | some w =>
        refine ⟨w, ?_, Or.inr ⟨rfl, rfl⟩⟩
        rw [hent, hfd, hr]
      | none =>
        refine ⟨v, ?_, Or.inl rfl⟩
        rw [hent, hfd, hr]
        exact h
  · refine ⟨v, ?_, Or.inl rfl⟩
    unfold entries at h ⊢
    rw [hc]
    simp only [if_neg ha]
    exact h

/-- **C7, counterexample** The cache is not append-only: with `(asset 7,
day 5) = 111` cached but no date at or before the requested day 0, the call
fetches and the fetched history's point `(day 5, 222)` overwrites the
existing entry. -/
theorem quote_cache_overwrite_counterexample :
    entries (fun a => if a = 7 then some [((5 : Date), (111 : Int))] else none)
        7 5 = some 111 ∧
      entries
          (get_value_for_date
            (fun a => if a = 7 then [((5 : Date), (222 : Int))] else []) 7 0
            (fun a => if a = 7 then some [((5 : Date), (111 : Int))] else none)).2.1
          7 5 = some 222 :=
  ⟨by decide, by decide⟩

/-- **C7, amended** `_get_value_for_date` never removes a cache entry: every
`(asset, date)` entry present before the call is still present after it, and
its value is unchanged unless the call fetched that asset's history and the
fetched history itself contains that date — in which case the entry holds
the fetched value, i.e. the last fetched history point at that date. -/
theorem get_value_cache_entries_preserved (hist : Int → QuoteRow)
    (tradable_id : Int) (d : Date) (cache : QuoteCache) (a : Int) (dte : Date)
    (v : Int) (h : entries cache a dte = some v) :
    ∃ v2,
      entries (get_value_for_date hist tradable_id d cache).2.1 a dte = some v2 ∧
        (v2 = v ∨
          ((get_value_for_date hist tradable_id d cache).2.2 = true ∧
            a = tradable_id ∧ lastFetched (hist tradable_id) dte = some v2)) := by
  cases hca : cache tradable_id with
  | none =>
    have hres : get_value_for_date hist tradable_id d cache
        = fetchQuotes hist tradable_id d cache := by
      simp only [get_value_for_date, hca]
    rw [hres]
    obtain ⟨v2, hv2, hor⟩ := fetchQuotes_entries hist tradable_id d cache a dte v h
    refine ⟨v2, hv2, ?_⟩
    rcases hor with h2 | h2
    · exact Or.inl h2
    · exact Or.inr ⟨rfl, h2.1, h2.2⟩
  | some row =>
    cases hfd : findDate row d with
    | some v0 =>
      have hres : get_value_for_date hist tradable_id d cache
          = (v0, cache, false) := by
        simp only [get_value_for_date, hca, hfd]
      rw [hres]
      exact ⟨v, h, Or.inl rfl⟩
    | none =>
      cases hbl : bestLE d row with
      | some bd =>
        have hres : get_value_for_date hist tradable_id d cache
            = ((findDate row bd).getD 0, cache, false) := by
          simp only [get_value_for_date, hca, hfd, hbl]
        rw [hres]
        exact ⟨v, h, Or.inl rfl⟩
      | none =>
        have hres : get_value_for_date hist tradable_id d cache
            = fetchQuotes hist tradable_id d cache := by
          simp only [get_value_for_date, hca, hfd, hbl]
        rw [hres]
        obtain ⟨v2, hv2, hor⟩ :=
          fetchQuotes_entries hist tradable_id d cache a dte v h
        refine ⟨v2, hv2, ?_⟩
        rcases hor with h2 | h2
        · exact Or.inl h2
        · exact Or.inr ⟨rfl, h2.1, h2.2⟩

/-- Witness for the amended C7 theorem: a cached entry survives a call that
answers from the cache. -/
theorem get_value_cache_entries_preserved_witness :
    entries (fun a => if a = 3 then some [((10 : Date), (77 : Int))] else none)
        3 10 = some 77 ∧
      ∃ v2,
        entries
            (get_value_for_date (fun _ => []) 3 12
              (fun a => if a = 3 then some [((10 : Date), (77 : Int))] else none)).2.1
            3 10 = some v2 ∧
          (v2 = 77 ∨
            ((get_value_for_date (fun _ => []) 3 12
                (fun a => if a = 3 then some [((10 : Date), (77 : Int))] else none)).2.2
                = true ∧
              (3 : Int) = 3 ∧ lastFetched ([] : QuoteRow) 10 = some v2)) :=
  ⟨by decide,
    get_value_cache_entries_preserved (fun _ => []) 3 12
      (fun a => if a = 3 then some [((10 : Date), (77 : Int))] else none)
      3 10 77 (by decide)⟩

/-- ASCII whitespace stripped by Python `str.strip()` (Unicode space
codepoints are stripped too by Python; names in this data are ASCII). -/
def isPySpace (c : Char) : Bool :=
  c = ' ' || c = '\t' || c = '\n' || c = '\x0d' || c = '\x0b' || c = '\x0c'

/-- Python `str.strip()`. -/
def pyStrip (s : String) : String :=
  String.mk (((s.data.dropWhile isPySpace).reverse.dropWhile isPySpace).reverse)

/-- `ManagerLeagueRow` (models.py), the fields `derived_balance` reads. -/
structure ManagerLeagueRow where
  name : String
  points : Int := 0
  team_value : Int := 0
  balance_from_api : Option Int := none
  deriving DecidableEq, Repr

/-- `TransferEntry` (models.py). -/
structure TransferEntry where
  manager_name : String
  transfer_date : Date
  amount : Int
  is_purchase : Bool := true
  deriving DecidableEq, Repr

/-- `net_transfer_spending` (balance.py lines 11-25): sum of purchases minus
sales over the entries whose stripped name equals the manager's stripped
name. -/
def net_transfer_spending (transfers : List TransferEntry)
    (manager_name : String) : Int :=
  transfers.foldl
    (fun total t =>
      if pyStrip t.manager_name ≠ pyStrip manager_name then total
      else if t.is_purchase then total + t.amount else total - t.amount)
    0

/-- `cumulative_salaries` (balance.py lines 28-46); the float
`int(team_value * 0.0001)` is modelled as truncated division by 10000
(exact over the program's value range). -/
def cumulative_salaries (_manager_name : String) (team_value_at_day : Int)
    (from_date to_date : Date) : Int :=
  let days := (to_date - from_date) + 1
  if days ≤ 0 then 0
  else max 0 (Int.tdiv team_value_at_day 10000) * days

/-- `derived_balance` (balance.py lines 49-73).  `transfers` is
`transfer_data.transfers`; `today` models `date.today()`. -/
def derived_balance (manager : ManagerLeagueRow) (transfers : List TransferEntry)
    (start_budget : Int) (salaries_enabled : Bool) (season_start : Option Date)
    (today : Date) : Int :=
  match manager.balance_from_api with
  | some b => b
  | none =>
    let spending := net_transfer_spending transfers manager.name
    let balance := start_budget - spending
    match salaries_enabled, season_start with
    | true, some ss =>
      if ss < today then
        balance - cumulative_salaries manager.name manager.team_value ss today
      else balance
    | _, _ => balance

/-- The signed transfer sum the spec describes: sales added, purchases
subtracted, over the stripped-name matches. -/
def signedTransferSum (transfers : List TransferEntry) (name : String) : Int :=
  ((transfers.filter fun t => pyStrip t.manager_name = pyStrip name).map
    fun t => if t.is_purchase then -t.amount else t.amount).sum

lemma net_transfer_spending_foldl (name : String) (l : List TransferEntry) :
    ∀ acc : Int,
      l.foldl
          (fun total t =>
            if pyStrip t.manager_name ≠ pyStrip name then total
            else if t.is_purchase then total + t.amount else total - t.amount)
          acc
        = acc - signedTransferSum l name := by
  induction l with
  | nil =>
    intro acc
    simp [signedTransferSum]
  | cons t l ih =>
    intro acc
    rw [List.foldl_cons]
    by_cases hname : pyStrip t.manager_name = pyStrip name
    · have hcond : ¬ pyStrip t.manager_name ≠ pyStrip name := fun hh => hh hname
      rw [if_neg hcond]
      by_cases hp : t.is_purchase
      · rw [if_pos hp, ih]
        unfold signedTransferSum
        rw [List.filter_cons_of_pos (by simp [hname]), List.map_cons,
          List.sum_cons, if_pos hp]
        ring
      · rw [if_neg hp, ih]
        unfold signedTransferSum
        rw [List.filter_cons_of_pos (by simp [hname]), List.map_cons,
          List.sum_cons, if_neg hp]
        ring
    · rw [if_pos hname, ih]
      unfold signedTransferSum
      rw [List.filter_cons_of_neg (by simp [hname])]

/-- **C5** `derived_balance` returns `balance_from_api` whenever present,
ignoring transfers, start budget and salaries; otherwise (salaries disabled)
it returns `start_budget` plus the signed sum of the manager's stripped-name
transfer entries, sales added and purchases subtracted. -/
theorem derived_balance_spec (manager : ManagerLeagueRow)
    (transfers : List TransferEntry) (start_budget : Int)
    (salaries_enabled : Bool) (season_start : Option Date) (today : Date) :
    (∀ b, manager.balance_from_api = some b →
        derived_balance manager transfers start_budget salaries_enabled
            season_start today
          = b) ∧
      (manager.balance_from_api = none →
        derived_balance manager transfers start_budget false season_start today
          = start_budget + signedTransferSum transfers manager.name) := by
  constructor
  · intro b hb
    unfold derived_balance
    rw [hb]
  · intro hb
    unfold derived_balance
    rw [hb]
    have hfold := net_transfer_spending_foldl manager.name transfers 0
    cases season_start with
    | none =>
      show start_budget - net_transfer_spending transfers manager.name = _
      unfold net_transfer_spending
      rw [hfold]
      ring
    | some ss =>
      show start_budget - net_transfer_spending transfers manager.name = _
      unfold net_transfer_spending
      rw [hfold]
      ring

/-- Witness for C5: a manager with an authoritative balance gets it verbatim;
a manager without one gets start budget plus the signed stripped-name sum. -/
theorem derived_balance_spec_witness :
    derived_balance ⟨"Alice", 0, 0, some 42⟩ [] 100 false none 0 = 42 ∧
      derived_balance ⟨"Bob ", 0, 0, none⟩
          [⟨" Bob", 0, 7, true⟩, ⟨"Bob", 1, 5, false⟩, ⟨"Carol", 1, 9, true⟩]
          100 false none 0
        = 100 +
            signedTransferSum
              [⟨" Bob", 0, 7, true⟩, ⟨"Bob", 1, 5, false⟩, ⟨"Carol", 1, 9, true⟩]
              "Bob " :=
  ⟨(derived_balance_spec ⟨"Alice", 0, 0, some 42⟩ [] 100 false none 0).1 42 rfl,
    (derived_balance_spec ⟨"Bob ", 0, 0, none⟩
        [⟨" Bob", 0, 7, true⟩, ⟨"Bob", 1, 5, false⟩, ⟨"Carol", 1, 9, true⟩]
        100 false none 0).2 rfl⟩

/-- The fields of `data/cache/news_transfer.json` that `_load_news_cache`
inspects; the payload arrays (transfer deltas/events, salary dates, balance
deltas) are carried through unread and omitted here.  `ts` is the stored
`time.time()` value in seconds, `since_date` the stored ISO string modelled
as the parsed day. -/
structure NewsCacheRaw where
  news_url : Option String
  since_date : Option Date
  ts : Option Int
  deriving DecidableEq, Repr

/-- `_load_news_cache` (scraper.py lines 56-71): `raw` is the parsed cache
file (`none` models a missing or unparseable file) and `now` models
`time.time()`. -/
def load_news_cache (raw : Option NewsCacheRaw) (news_url : String)
    (since_date : Date) (ttl : Int) (now : Int) : Option NewsCacheRaw :=
  match raw with
  | none => none
  | some r =>
    if r.news_url ≠ some news_url ∨ r.since_date ≠ some since_date then none
    else
      match r.ts with
      | none => none
      | some ts => if ttl < now - ts then none else some r

/-- **C9, counterexample** A cache whose age equals the ttl exactly is still
returned: the source expires only on `(now - ts) > ttl` (strict), while the
claim requires `now - ts < ttl` and says age `>= ttl` yields `None`. -/
theorem news_cache_ttl_boundary_counterexample :
    (1060 : Int) - 1000 ≥ 60 ∧
      load_news_cache (some ⟨some "u", some 0, some 1000⟩) "u" 0 60 1060
        = some ⟨some "u", some 0, some 1000⟩ :=
  ⟨by decide, by decide⟩

/-- **C9, amended** `_load_news_cache` returns the cached entry exactly when
the stored query key (news_url and since_date) matches the request, the
timestamp is present, and the age `now - ts` is at most the ttl; on key
mismatch, missing timestamp, or age strictly greater than the ttl it
returns `None`. -/
theorem load_news_cache_valid_iff (raw : Option NewsCacheRaw)
    (news_url : String) (since_date : Date) (ttl : Int) (now : Int)
    (r : NewsCacheRaw) :
    load_news_cache raw news_url since_date ttl now = some r ↔
      raw = some r ∧ r.news_url = some news_url ∧
        r.since_date = some since_date ∧
        ∃ ts, r.ts = some ts ∧ now - ts ≤ ttl := by
  cases raw with
  | none =>
    constructor
    · intro h
      cases h
    · rintro ⟨h, -⟩
      cases h
  | some r' =>
    have hEq : load_news_cache (some r') news_url since_date ttl now
        = if r'.news_url ≠ some news_url ∨ r'.since_date ≠ some since_date
            then none
          else
            match r'.ts with
            | none => none
            | some ts => if ttl < now - ts then none else some r' := rfl
    rw [hEq]
    by_cases hk : r'.news_url ≠ some news_url ∨ r'.since_date ≠ some since_date
    · rw [if_pos hk]
      constructor
      · intro h
        cases h
      · rintro ⟨hraw, hu, hs, -⟩
        injection hraw with hraw
        subst hraw
        rcases hk with hk | hk
        · exact absurd hu hk
        · exact absurd hs hk
    · rw [if_neg hk]
      push_neg at hk
      obtain ⟨hu, hs⟩ := hk
      cases hts : r'.ts with
      | none =>
        change (none : Option NewsCacheRaw) = some r ↔ _
        constructor
        · intro h
          cases h
        · rintro ⟨hraw, -, -, ts, hts', -⟩
          injection hraw with hraw
          subst hraw
          rw [hts] at hts'
          cases hts'
      | some ts =>
        change (if ttl < now - ts then (none : Option NewsCacheRaw) else some r')
            = some r ↔ _
        by_cases hage : ttl < now - ts
        · rw [if_pos hage]
          constructor
          · intro h
            cases h
          · rintro ⟨hraw, -, -, ts', hts', hle⟩
            injection hraw with hraw
            subst hraw
            rw [hts] at hts'
            injection hts' with hts'
            subst hts'
            exact absurd hle (not_le.mpr hage)
        · rw [if_neg hage]
          constructor
          · intro h
            injection h with h
            subst h
            exact ⟨rfl, hu, hs, ts, hts, not_lt.mp hage⟩
          · rintro ⟨hraw, -, -, -⟩
            exact hraw

/-- salary_from_squads.py line 28. -/
def SALARY_BASE : Int := 500

/-- salary_from_squads.py line 30. -/
def COMPUTER_USER_ID : Int := 1

/-- config.py line 68: `time(CUTOFF_HOUR_MEZ, 0)` with the default
`CUTOFF_HOUR_MEZ = 4`, in minutes past midnight. -/
def SALARY_CUTOFF_TIME : Int := 240

/-- Python dict lookup on the `salary_by_user` accumulator. -/
def lookupInt (uid : Int) : List (Int × Int) → Option Int
  | [] => none
  | (k, v) :: rest => if k = uid then some v else lookupInt uid rest

/-- `salary_by_user[uid] = salary_by_user.get(uid, 0) + day_salary`
(update in place, append when the key is new). -/
def addSalary (uid amt : Int) : List (Int × Int) → List (Int × Int)
  | [] => [(uid, amt)]
  | (k, v) :: rest =>
    if k = uid then (k, v + amt) :: rest else (k, v) :: addSalary uid amt rest

/-- Body of `for tid in squad:` (salary_from_squads.py lines 183-185):
threads the quote cache and accumulates
`day_salary += SALARY_BASE + int(mv * SALARY_PCT)`; the float
`int(mv * 0.001)` is modelled as truncated division by 1000 (exact over the
program's value range). -/
def squadFeeStep (hist : Int → QuoteRow) (d : Date) (q : Int × QuoteCache)
    (tid : Int) : Int × QuoteCache :=
  (q.1 + (SALARY_BASE + Int.tdiv (get_value_for_date hist tid d q.2).1 1000),
    (get_value_for_date hist tid d q.2).2.1)

/-- Body of `for uid, squad in squads_at_d.items():` (lines 179-186): the
computer account is skipped, otherwise the day salary over the squad
(iterated in ascending order; Python iterates the set in unspecified order,
on which the result does not depend) is added to `salary_by_user[uid]`. -/
def managerFeeStep (hist : Int → QuoteRow) (d : Date)
    (acc2 : List (Int × Int) × QuoteCache) (p : Int × Finset Int) :
    List (Int × Int) × QuoteCache :=
  if p.1 = COMPUTER_USER_ID then acc2
  else
    (addSalary p.1 ((p.2.sort (· ≤ ·)).foldl (squadFeeStep hist d) (0, acc2.2)).1
        acc2.1,
      ((p.2.sort (· ≤ ·)).foldl (squadFeeStep hist d) (0, acc2.2)).2)

/-- Body of `for d in sorted(salary_dates):` (lines 174-186): reconstruct the
cutoff-adjusted squads at debit day `d` and charge every manager; market
values are taken at `salary_for_date = d - timedelta(days=1)`. -/
def dayStep (hist : Int → QuoteRow) (seed_date : Date) (seed_squads : Squads)
    (transfer_events : List Ev) (acc : List (Int × Int) × QuoteCache)
    (d : Date) : List (Int × Int) × QuoteCache :=
  (reconstruct_squads_at_date seed_date seed_squads transfer_events d
      (some SALARY_CUTOFF_TIME)).foldl
    (managerFeeStep hist (d - 1)) acc

/-- `compute_salaries_from_historical_squads` (salary_from_squads.py lines
117-194), its IO shell resolved: the seed file is the pair
`(seed_date, seed_squads)`, the news fetches are the passed
`transfer_events` and `salary_active_dates` (the scraper passes both), the
quote cache is threaded in and returned instead of being mutated in place
and saved, and `get_quote_history` is the `hist` parameter.  The
`all_tradable_ids` pass of the source only feeds logging and is omitted. -/
def compute_salaries_from_historical_squads (hist : Int → QuoteRow)
    (seed_date : Date) (seed_squads : Squads) (transfer_events : List Ev)
    (salary_active_dates : Finset Date) (quote_cache : QuoteCache) :
    List (Int × Int) × QuoteCache :=
  if salary_active_dates = ∅ then ([], quote_cache)
  else
    (salary_active_dates.sort (· ≤ ·)).foldl
      (dayStep hist seed_date seed_squads transfer_events) ([], quote_cache)

/-- Per-squad fee per §4.4 of the spec: for each asset of the roster (taken
ascending), `base_fee + fee_pct * value_on(asset, d)` with `value_on` the
cache operation, cache threaded left to right. -/
def squadFeeSpec (hist : Int → QuoteRow) (d : Date) :
    List Int → QuoteCache → Int × QuoteCache
  | [], c => (0, c)
  | tid :: rest, c =>
    (SALARY_BASE + Int.tdiv (get_value_for_date hist tid d c).1 1000
        + (squadFeeSpec hist d rest (get_value_for_date hist tid d c).2.1).1,
      (squadFeeSpec hist d rest (get_value_for_date hist tid d c).2.1).2)

/-- Per-day fees per §4.4: every manager of the reconstructed roster except
the computer account is charged the squad fee; the result maps each manager
id to its charge for the day. -/
def rosterFeesSpec (hist : Int → QuoteRow) (d : Date) :
    Squads → QuoteCache → (Int → Int) × QuoteCache
  | [], c => (fun _ => 0, c)
  | (uid, sq) :: rest, c =>
    if uid = COMPUTER_USER_ID then rosterFeesSpec hist d rest c
    else
      (fun u =>
          (if u = uid then (squadFeeSpec hist d (sq.sort (· ≤ ·)) c).1 else 0)
            + (rosterFeesSpec hist d rest
                (squadFeeSpec hist d (sq.sort (· ≤ ·)) c).2).1 u,
        (rosterFeesSpec hist d rest
          (squadFeeSpec hist d (sq.sort (· ≤ ·)) c).2).2)

/-- The fee ledger per §4.4: for each fee-active day `d` (ascending),
reconstruct the roster as of `(d, cutoff)` and charge each asset
`base_fee + fee_pct * value_on(asset, d - 1 day)`; the ledger is the sum
across days. -/
def ledgerSpec (hist : Int → QuoteRow) (seed_date : Date) (seed_squads : Squads)
    (transfer_events : List Ev) :
    List Date → QuoteCache → (Int → Int) × QuoteCache
  | [], c => (fun _ => 0, c)
  | d :: ds, c =>
    (fun u =>
        (rosterFeesSpec hist (d - 1)
            (reconstruct_squads_at_date seed_date seed_squads transfer_events d
              (some SALARY_CUTOFF_TIME)) c).1 u
          + (ledgerSpec hist seed_date seed_squads transfer_events ds
              (rosterFeesSpec hist (d - 1)
                (reconstruct_squads_at_date seed_date seed_squads transfer_events
                  d (some SALARY_CUTOFF_TIME)) c).2).1 u,
      (ledgerSpec hist seed_date seed_squads transfer_events ds
        (rosterFeesSpec hist (d - 1)
          (reconstruct_squads_at_date seed_date seed_squads transfer_events d
            (some SALARY_CUTOFF_TIME)) c).2).2)

lemma squadFee_foldl (hist : Int → QuoteRow) (d : Date) (tids : List Int) :
    ∀ (a : Int) (c : QuoteCache),
      tids.foldl (squadFeeStep hist d) (a, c)
        = (a + (squadFeeSpec hist d tids c).1, (squadFeeSpec hist d tids c).2) := by
  induction tids with
  | nil =>
    intro a c
    show (a, c) = _
    simp [squadFeeSpec]
  | cons tid rest ih =>
    intro a c
    rw [List.foldl_cons]
    have hstep : squadFeeStep hist d (a, c) tid
        = (a + (SALARY_BASE + Int.tdiv (get_value_for_date hist tid d c).1 1000),
            (get_value_for_date hist tid d c).2.1) := rfl
    rw [hstep, ih]
    have hspec : squadFeeSpec hist d (tid :: rest) c
        = (SALARY_BASE + Int.tdiv (get_value_for_date hist tid d c).1 1000
              + (squadFeeSpec hist d rest (get_value_for_date hist tid d c).2.1).1,
            (squadFeeSpec hist d rest (get_value_for_date hist tid d c).2.1).2) := rfl
    rw [hspec]
    simp only [Prod.mk.injEq]
    exact ⟨by ring, by trivial⟩

lemma lookupInt_addSalary (uid u0 fee : Int) (sal : List (Int × Int)) :
    (lookupInt uid (addSalary u0 fee sal)).getD 0
      = (lookupInt uid sal).getD 0 + (if uid = u0 then fee else 0) := by
  induction sal with
  | nil =>
    show (lookupInt uid [(u0, fee)]).getD 0 = _
    unfold lookupInt
    by_cases h : u0 = uid
    · rw [if_pos h, if_pos h.symm]
      simp
    · rw [if_neg h, if_neg (fun hh => h (Eq.symm hh))]
      simp [lookupInt]
  | cons p rest ih =>
    obtain ⟨k, v⟩ := p
    unfold addSalary
    by_cases hk : k = u0
    · rw [if_pos hk]
      unfold lookupInt
      by_cases hku : k = uid
      · rw [if_pos hku, if_pos hku, if_pos (hku.symm.trans hk)]
        simp
      · rw [if_neg hku, if_neg hku,
          if_neg (fun hh => hku (hk.trans (Eq.symm hh))), add_zero]
    · rw [if_neg hk]
      unfold lookupInt
      by_cases hku : k = uid
      · rw [if_pos hku, if_pos hku, if_neg (fun hh => hk (hku.trans hh)), add_zero]
      · rw [if_neg hku, if_neg hku]
        exact ih

lemma roster_foldl_fees (hist : Int → QuoteRow) (d : Date) (roster : Squads) :
    ∀ (acc : List (Int × Int) × QuoteCache),
      (∀ uid,
          (lookupInt uid (roster.foldl (managerFeeStep hist d) acc).1).getD 0
            = (lookupInt uid acc.1).getD 0
                + (rosterFeesSpec hist d roster acc.2).1 uid)
        ∧ (roster.foldl (managerFeeStep hist d) acc).2
            = (rosterFeesSpec hist d roster acc.2).2 := by
  induction roster with
  | nil =>
    intro acc
    constructor
    · intro uid
      simp [rosterFeesSpec]
    · rfl
  | cons p rest ih =>
    obtain ⟨u0, sq⟩ := p
    intro acc
    rw [List.foldl_cons]
    by_cases hu : u0 = COMPUTER_USER_ID
    · have hstep : managerFeeStep hist d acc (u0, sq) = acc := by
        unfold managerFeeStep
        rw [if_pos hu]
      have hspec : rosterFeesSpec hist d ((u0, sq) :: rest) acc.2
          = rosterFeesSpec hist d rest acc.2 := by
        show (if u0 = COMPUTER_USER_ID then rosterFeesSpec hist d rest acc.2
          else _) = _
        rw [if_pos hu]
      rw [hstep, hspec]
      exact ih acc
    · have hfee := squadFee_foldl hist d (sq.sort (· ≤ ·)) 0 acc.2
      have hstep : managerFeeStep hist d acc (u0, sq)
          = (addSalary u0 (0 + (squadFeeSpec hist d (sq.sort (· ≤ ·)) acc.2).1)
                acc.1,
              (squadFeeSpec hist d (sq.sort (· ≤ ·)) acc.2).2) := by
        unfold managerFeeStep
        rw [if_neg hu]
        rw [show ((u0, sq) : Int × Finset Int).2 = sq from rfl,
          show ((u0, sq) : Int × Finset Int).1 = u0 from rfl, hfee]
      rw [hstep]
      obtain ⟨ih1, ih2⟩ := ih
        ((addSalary u0 (0 + (squadFeeSpec hist d (sq.sort (· ≤ ·)) acc.2).1) acc.1,
          (squadFeeSpec hist d (sq.sort (· ≤ ·)) acc.2).2))
      constructor
      · intro uid
        rw [ih1 uid]
        have hspec : (rosterFeesSpec hist d ((u0, sq) :: rest) acc.2).1 uid
            = (if uid = u0 then (squadFeeSpec hist d (sq.sort (· ≤ ·)) acc.2).1
                else 0)
                + (rosterFeesSpec hist d rest
                    (squadFeeSpec hist d (sq.sort (· ≤ ·)) acc.2).2).1 uid := by
          show ((if u0 = COMPUTER_USER_ID then rosterFeesSpec hist d rest acc.2
            else _)).1 uid = _
          rw [if_neg hu]
        rw [hspec]
        show (lookupInt uid (addSalary u0 _ acc.1)).getD 0 + _ = _
        rw [lookupInt_addSalary]
        simp only [zero_add]
        ring
      · rw [ih2]
        have hspec : (rosterFeesSpec hist d ((u0, sq) :: rest) acc.2).2
            = (rosterFeesSpec hist d rest
                (squadFeeSpec hist d (sq.sort (· ≤ ·)) acc.2).2).2 := by
          show ((if u0 = COMPUTER_USER_ID then rosterFeesSpec hist d rest acc.2
            else _)).2 = _
          rw [if_neg hu]
        rw [hspec]

lemma days_foldl_ledger (hist : Int → QuoteRow) (seed_date : Date)
    (seed_squads : Squads) (transfer_events : List Ev) (ds : List Date) :
    ∀ (acc : List (Int × Int) × QuoteCache),
      (∀ uid,
          (lookupInt uid
              ((ds.foldl (dayStep hist seed_date seed_squads transfer_events)
                acc)).1).getD 0
            = (lookupInt uid acc.1).getD 0
                + (ledgerSpec hist seed_date seed_squads transfer_events ds
                    acc.2).1 uid)
        ∧ (ds.foldl (dayStep hist seed_date seed_squads transfer_events) acc).2
            = (ledgerSpec hist seed_date seed_squads transfer_events ds acc.2).2 := by
  induction ds with
  | nil =>
    intro acc
    constructor
    · intro uid
      simp [ledgerSpec]
    · rfl
  | cons d ds ih =>
    intro acc
    rw [List.foldl_cons]
    have hroster := roster_foldl_fees hist (d - 1)
      (reconstruct_squads_at_date seed_date seed_squads transfer_events d
        (some SALARY_CUTOFF_TIME)) acc
    obtain ⟨hr1, hr2⟩ := hroster
    obtain ⟨ih1, ih2⟩ := ih
      (dayStep hist seed_date seed_squads transfer_events acc d)
    constructor
    · intro uid
      rw [ih1 uid]
      have hday1 : (lookupInt uid
            (dayStep hist seed_date seed_squads transfer_events acc d).1).getD 0
          = (lookupInt uid acc.1).getD 0
              + (rosterFeesSpec hist (d - 1)
                  (reconstruct_squads_at_date seed_date seed_squads
                    transfer_events d (some SALARY_CUTOFF_TIME)) acc.2).1 uid :=
        hr1 uid
      have hday2 : (dayStep hist seed_date seed_squads transfer_events acc d).2
          = (rosterFeesSpec hist (d - 1)
              (reconstruct_squads_at_date seed_date seed_squads transfer_events
                d (some SALARY_CUTOFF_TIME)) acc.2).2 :=
        hr2
      rw [hday1, hday2]
      have hspec : (ledgerSpec hist seed_date seed_squads transfer_events
            (d :: ds) acc.2).1 uid
          = (rosterFeesSpec hist (d - 1)
                (reconstruct_squads_at_date seed_date seed_squads transfer_events
                  d (some SALARY_CUTOFF_TIME)) acc.2).1 uid
              + (ledgerSpec hist seed_date seed_squads transfer_events ds
                  (rosterFeesSpec hist (d - 1)
                    (reconstruct_squads_at_date seed_date seed_squads
                      transfer_events d (some SALARY_CUTOFF_TIME)) acc.2).2).1
                  uid := rfl
      rw [hspec]
      ring
    · rw [ih2]
      have hday2 : (dayStep hist seed_date seed_squads transfer_events acc d).2
          = (rosterFeesSpec hist (d - 1)
              (reconstruct_squads_at_date seed_date seed_squads transfer_events
                d (some SALARY_CUTOFF_TIME)) acc.2).2 :=
        hr2
      rw [hday2]
      rfl

/-- **C4** The cumulative salary dict of
`compute_salaries_from_historical_squads` charges every manager other than
the computer account, for each fee-active day `d` (ascending) and each asset
of the cutoff-adjusted roster at `d`, a per-asset fee of
`SALARY_BASE + value/1000` with the value looked up at `d - 1`; and in the
concrete scenario (two-asset roster, valuation 100000 on `d - 1`) the
per-asset fee is 600 and the manager is charged 1200. -/
theorem compute_salaries_fee_formula (hist : Int → QuoteRow) (seed_date : Date)
    (seed_squads : Squads) (transfer_events : List Ev)
    (salary_active_dates : Finset Date) (quote_cache : QuoteCache) (uid : Int) :
    ((lookupInt uid
          (compute_salaries_from_historical_squads hist seed_date seed_squads
            transfer_events salary_active_dates quote_cache).1).getD 0
        = (ledgerSpec hist seed_date seed_squads transfer_events
            (salary_active_dates.sort (· ≤ ·)) quote_cache).1 uid)
      ∧ lookupInt 2
            (compute_salaries_from_historical_squads
              (fun _ => [((4 : Date), (100000 : Int))]) 0
              [(2, ({10, 11} : Finset Int))] [] {5} (fun _ => none)).1
          = some 1200 := by
  constructor
  · unfold compute_salaries_from_historical_squads
    by_cases hempty : salary_active_dates = ∅
    · rw [if_pos hempty, hempty]
      simp [Finset.sort_empty, ledgerSpec, lookupInt]
    · rw [if_neg hempty]
      have h := (days_foldl_ledger hist seed_date seed_squads transfer_events
        (salary_active_dates.sort (· ≤ ·)) ([], quote_cache)).1 uid
      rw [h]
      simp [lookupInt]
  · have hne : ({5} : Finset Date) ≠ ∅ := Finset.singleton_ne_empty 5
    have hsort2 : ({10, 11} : Finset Int).sort (· ≤ ·) = [10, 11] := by
      rw [show ({10, 11} : Finset Int) = insert 10 {11} from rfl]
      rw [Finset.sort_insert]
      · rw [Finset.sort_singleton]
      · intro b hb
        rw [Finset.mem_singleton] at hb
        subst hb
        decide
      · decide
    unfold compute_salaries_from_historical_squads
    rw [if_neg hne, Finset.sort_singleton, List.foldl_cons, List.foldl_nil]
    unfold dayStep
    have hrec : reconstruct_squads_at_date 0 [(2, ({10, 11} : Finset Int))] [] 5
        (some SALARY_CUTOFF_TIME) = [(2, ({10, 11} : Finset Int))] := by decide
    rw [hrec, List.foldl_cons, List.foldl_nil]
    unfold managerFeeStep
    rw [if_neg
      (by decide : ¬ ((2 : Int), ({10, 11} : Finset Int)).1 = COMPUTER_USER_ID)]
    rw [show ((2 : Int), ({10, 11} : Finset Int)).2 = ({10, 11} : Finset Int)
      from rfl]
    rw [hsort2]
    decide

end Comunio
